import Mathlib

set_option linter.unusedVariables false

/-! Formal model of the SimpleParser repository (simpleparser/simpleparser.py).

The Python source is embedded shallowly: Python lists become Lean lists,
Python integers become the type of integers, Python runtime exceptions
become an explicit error type threaded through the Except monad, and
Python object identity (which is what the operator == means for the token
wrapper classes, none of which define __eq__) is modelled by tagging each
token occurrence with the index at which it was created.  Python floats
are modelled by exact rationals; the IEEE rounding of the float builtin
is outside the model, which only affects the numeric value stored for
float literals, not control flow. -/

/-- Python exceptions the embedded code can raise.  The first two are the
ParseError cases from the source; the rest model builtin exceptions that
can escape from indexing, attribute access, keyword-argument lookup and
arithmetic.  The unmodeled case stands for float operations whose exact
value is not representable in this model (fractional powers); no claim
exercises it. -/
inductive PyErr where
  | unmatchedCloseBrace
  | unclosedOpenBrace
  | indexError
  | attributeError
  | typeError
  | zeroDivisionError
  | valueError
  | keyError (name : String)
  | unmodeled
  deriving DecidableEq, Repr

/-- Python list index normalisation: a negative index wraps once from the
end; anything still out of range raises IndexError. -/
def pyNorm (n : ℕ) (i : ℤ) : Option ℕ :=
  if 0 ≤ i then (if i < (n : ℤ) then some i.toNat else none)
  else (if -(n : ℤ) ≤ i then some (i + n).toNat else none)

/-- Python list read l[i]. -/
def pyGet {α : Type} (l : List α) (i : ℤ) : Except PyErr α :=
  match pyNorm l.length i with
  | some k =>
    match l.get? k with
    | some a => .ok a
    | none => .error .indexError
  | none => .error .indexError

/-- Python list write l[i] = a. -/
def pySet {α : Type} (l : List α) (i : ℤ) (a : α) : Except PyErr (List α) :=
  match pyNorm l.length i with
  | some k => .ok (l.set k a)
  | none => .error .indexError

/-- Python str.isspace for a single character, restricted to the ASCII
whitespace characters (the inputs of interest contain no exotic Unicode
whitespace). -/
def pyIsSpace (c : Char) : Bool :=
  c == ' ' || c == '\t' || c == '\n' || c == '\x0d' || c == '\x0b' || c == '\x0c'

/-- Python values flowing through the default operator table: booleans,
integers and (exact-rational models of) floats. -/
inductive Val where
  | bool (b : Bool)
  | int (n : ℤ)
  | float (q : ℚ)
  deriving DecidableEq, Repr

/-- Python truthiness of a value. -/
def Val.truthy : Val → Bool
  | .bool b => b
  | .int n => decide (n ≠ 0)
  | .float q => decide (q ≠ 0)

/-- Numeric content of a value (bool counts as 0 or 1, as in Python). -/
def Val.toQ : Val → ℚ
  | .bool b => if b then 1 else 0
  | .int n => (n : ℚ)
  | .float q => q

def Val.isFloat : Val → Bool
  | .float _ => true
  | _ => false

/-- Integer content of a non-float value (bools are ints in Python). -/
def Val.toIntLike : Val → ℤ
  | .bool b => if b then 1 else 0
  | .int n => n
  | .float q => q.num

/-- Python addition on numbers: float dominates, otherwise int result. -/
def pyAdd (a b : Val) : Except PyErr Val :=
  if a.isFloat || b.isFloat then .ok (.float (a.toQ + b.toQ))
  else .ok (.int (a.toIntLike + b.toIntLike))

def pySub (a b : Val) : Except PyErr Val :=
  if a.isFloat || b.isFloat then .ok (.float (a.toQ - b.toQ))
  else .ok (.int (a.toIntLike - b.toIntLike))

def pyMul (a b : Val) : Except PyErr Val :=
  if a.isFloat || b.isFloat then .ok (.float (a.toQ * b.toQ))
  else .ok (.int (a.toIntLike * b.toIntLike))

/-- Python true division: always a float, ZeroDivisionError on zero. -/
def pyDiv (a b : Val) : Except PyErr Val :=
  if b.toQ = 0 then .error .zeroDivisionError
  else .ok (.float (a.toQ / b.toQ))

/-- Python floor-modulo. -/
def pyMod (a b : Val) : Except PyErr Val :=
  if b.toQ = 0 then .error .zeroDivisionError
  else if a.isFloat || b.isFloat then
    .ok (.float (a.toQ - b.toQ * ((a.toQ / b.toQ) : ℚ).floor))
  else .ok (.int (a.toIntLike.fmod b.toIntLike))

/-- Python power.  Integer base with nonnegative integer exponent gives an
int; a negative integer exponent gives a float; float powers with integer
exponents are exact; fractional exponents are not representable in this
exact model and are flagged unmodeled. -/
def pyPow (a b : Val) : Except PyErr Val :=
  if a.isFloat || b.isFloat then
    if b.toQ.den = 1 then
      if a.toQ = 0 ∧ b.toQ.num < 0 then .error .zeroDivisionError
      else .ok (.float (a.toQ ^ b.toQ.num))
    else .error .unmodeled
  else
    if 0 ≤ b.toIntLike then .ok (.int (a.toIntLike ^ b.toIntLike.toNat))
    else if a.toIntLike = 0 then .error .zeroDivisionError
    else .ok (.float ((a.toIntLike : ℚ) ^ b.toIntLike))

/-- Python not. -/
def valNot (a : Val) : Val := .bool (!a.truthy)

/-- Python and: returns the first operand when it is falsy, else the
second. -/
def valAnd (a b : Val) : Val := if a.truthy then b else a

/-- Python or: returns the first operand when it is truthy, else the
second. -/
def valOr (a b : Val) : Val := if a.truthy then a else b

/-- Numeric comparisons; on this value type every value is numeric, so
comparison never raises (matching Python on bool/int/float operands). -/
def pyEqV (a b : Val) : Except PyErr Val := .ok (.bool (decide (a.toQ = b.toQ)))

def pyNeV (a b : Val) : Except PyErr Val := .ok (.bool (decide (a.toQ ≠ b.toQ)))

def pyGeV (a b : Val) : Except PyErr Val := .ok (.bool (decide (b.toQ ≤ a.toQ)))

def pyGtV (a b : Val) : Except PyErr Val := .ok (.bool (decide (b.toQ < a.toQ)))

def pyLeV (a b : Val) : Except PyErr Val := .ok (.bool (decide (a.toQ ≤ b.toQ)))

def pyLtV (a b : Val) : Except PyErr Val := .ok (.bool (decide (a.toQ < b.toQ)))

/-- Calling a Python function of one positional parameter with an
argument tuple: a wrong argument count raises TypeError. -/
def unaryFn (f : Val → Except PyErr Val) : List Val → Except PyErr Val
  | [a] => f a
  | _ => .error .typeError

/-- Calling a Python function of two positional parameters with an
argument tuple. -/
def binFn (f : Val → Val → Except PyErr Val) : List Val → Except PyErr Val
  | [a, b] => f a b
  | _ => .error .typeError

/-! Regular expressions.  The source matches token text with
regex.match(pattern, token); all registered patterns are a plain body
followed by the end anchor.  The body is embedded as a regular expression
and matched with Brzozowski derivatives; the combination of the implicit
start anchor of regex.match and the written end anchor is modelled by
pyDollarMatch below. -/

inductive RE where
  | emp
  | eps
  | cls (f : Char → Bool)
  | cat (a b : RE)
  | alt (a b : RE)
  | star (a : RE)

def RE.nullable : RE → Bool
  | .emp => false
  | .eps => true
  | .cls _ => false
  | .cat a b => a.nullable && b.nullable
  | .alt a b => a.nullable || b.nullable
  | .star _ => true

def RE.deriv : RE → Char → RE
  | .emp, _ => .emp
  | .eps, _ => .emp
  | .cls f, c => if f c then .eps else .emp
  | .cat a b, c => if a.nullable then .alt (.cat (a.deriv c) b) (b.deriv c) else .cat (a.deriv c) b
  | .alt a b, c => .alt (a.deriv c) (b.deriv c)
  | .star a, c => .cat (a.deriv c) (.star a)

/-- Whether the expression matches the entire character list. -/
def RE.matchL : RE → List Char → Bool
  | r, [] => r.nullable
  | r, c :: s => (r.deriv c).matchL s

def RE.chr (c : Char) : RE := .cls (fun d => d == c)

def RE.plus (r : RE) : RE := .cat r (.star r)

def RE.opt (r : RE) : RE := .alt .eps r

def RE.strL : List Char → RE
  | [] => .eps
  | c :: s => .cat (RE.chr c) (RE.strL s)

/-- Truthiness of regex.match(body followed by the dollar anchor, s): the
implicit start anchor plus the final dollar force the body to consume the
whole string, except that the dollar also matches just before one
trailing newline. -/
def pyDollarMatch (body : RE) (s : List Char) : Bool :=
  body.matchL s ||
    (match s.getLast? with
     | some c => c == '\n' && body.matchL s.dropLast
     | none => false)

/-- Operator arity as validated by the Operator constructor: the type
field is 1 (unary) or 2 (binary), any other value is rejected. -/
inductive OpType where
  | unary
  | binary
  deriving DecidableEq, Repr

/-- Structure for storing operators data (class Operator).  The priority
field already reflects the constructor: a priority of -1 is replaced by
infinity (the top element), other priorities are nonnegative integers. -/
structure Operator where
  name : String
  type : OpType
  func : List Val → Except PyErr Val
  signs : List String
  priority : WithTop ℕ

/-- Structure for storing constant token kinds (class ConstantType).  The
regexp field holds the pattern body in front of the written dollar
anchor; to_value can raise, like the int builtin. -/
structure ConstantType where
  regexp : RE
  to_value : String → Except PyErr Val

/-- Lexical tokens (VariableToken, BraceToken, OperatorToken,
ConstantToken).  The brace flag is true for an open brace. -/
inductive Token where
  | brace (isOpen : Bool)
  | oper (op : Operator)
  | var (name : String)
  | const (value : Val)

/-- Python dict with string keys and Operator values, as an insertion
ordered association list; update keeps the position of an existing key,
new keys are appended (Python 3.7+ dict semantics). -/
abbrev SignDict := List (String × Operator)

def dictUpsert (d : SignDict) (k : String) (v : Operator) : SignDict :=
  if d.any (fun p => p.1 == k) then d.map (fun p => if p.1 == k then (k, v) else p)
  else d ++ [(k, v)]

def dictFind (d : SignDict) (k : String) : Option Operator :=
  (d.find? (fun p => p.1 == k)).map (fun p => p.2)

/-- The Parser class: it stores the operator and constant tables given to
the constructor. -/
structure Parser where
  operators : List Operator
  constants : List ConstantType

/-- Sign-to-operator dict built in the constructor by merging, for each
operator in order, the dict from its signs. -/
def Parser.operators_signs (p : Parser) : SignDict :=
  p.operators.foldl (fun d op => op.signs.foldl (fun d s => dictUpsert d s op) d) []

/-- Name-to-operator dict built in the constructor. -/
def Parser.operators_names (p : Parser) : SignDict :=
  p.operators.foldl (fun d op => dictUpsert d op.name op) []

/-- The constant-matching loop at the end of Parser.to_token: try each
registered constant kind in order; on the first whose pattern matches,
return a constant token holding the converted value. -/
def matchConsts : List ConstantType → String → Except PyErr (Option Token)
  | [], t => .ok (some (.var t))
  | ct :: rest, t =>
    if pyDollarMatch ct.regexp t.data then
      match ct.to_value t with
      | .ok v => .ok (some (.const v))
      | .error e => .error e
    else matchConsts rest t

/-- Parser.to_token.  A none result models the implicit None returned on
a falsy (empty) token string. -/
def Parser.to_token (p : Parser) (t : String) : Except PyErr (Option Token) :=
  if t == "(" then .ok (some (.brace true))
  else if t == ")" then .ok (some (.brace false))
  else
    match dictFind p.operators_names t with
    | some op => .ok (some (.oper op))
    | none =>
      match dictFind p.operators_signs t with
      | some op => .ok (some (.oper op))
      | none =>
        if t == "" then .ok none
        else matchConsts p.constants t

/-- Python slice s[-k:] (note s[-0:] is all of s). -/
def pyTailSlice (s : List Char) (k : ℕ) : List Char :=
  if k = 0 then s else s.drop (s.length - k)

/-- Python slice s[:-k] (note s[:-0] is empty). -/
def pyDropTail (s : List Char) (k : ℕ) : List Char :=
  if k = 0 then [] else s.take (s.length - k)

/-- The local append_token helper of Parser.split: emit the buffered text
as a token unless it is empty or whitespace.  The to_token result is none
only for the empty string (lemma to_token_none below), which the guard
excludes, so the none branch is unreachable. -/
def Parser.appendTok (p : Parser) (ret : List Token) (t : String) : Except PyErr (List Token) :=
  if t.data.isEmpty then .ok ret
  else if t.data.all pyIsSpace then .ok ret
  else
    match p.to_token t with
    | .error e => .error e
    | .ok (some tok) => .ok (ret ++ [tok])
    | .ok none => .ok ret

/-- The character loop of Parser.split, carrying the emitted tokens and
the pending token-text buffer. -/
def Parser.splitAux (p : Parser) : List Char → List Token → String → Except PyErr (List Token)
  | [], ret, _ => .ok ret
  | c :: rest, ret, cur =>
    if pyIsSpace c || c == '(' || c == ')' then
      match p.appendTok ret cur with
      | .error e => .error e
      | .ok ret =>
        match p.appendTok ret (String.singleton c) with
        | .error e => .error e
        | .ok ret => p.splitAux rest ret ""
    else if (dictFind p.operators_signs cur).isSome then
      if (dictFind p.operators_signs (cur.push c)).isSome then
        p.splitAux rest ret (cur.push c)
      else
        match p.appendTok ret cur with
        | .error e => .error e
        | .ok ret => p.splitAux rest ret (String.singleton c)
    else
      let cur := cur.push c
      match p.operators_signs.find?
          (fun pr => pyTailSlice cur.data pr.1.data.length == pr.1.data) with
      | some pr =>
        match p.appendTok ret (String.mk (pyDropTail cur.data pr.1.data.length)) with
        | .error e => .error e
        | .ok ret => p.splitAux rest ret pr.1
      | none => p.splitAux rest ret cur

/-- Parser.split: lexical analysis; one trailing space is appended to
flush the final token. -/
def Parser.split (p : Parser) (s : String) : Except PyErr (List Token) :=
  p.splitAux (s.data ++ [' ']) [] ""

/-! The precedence resolver (Parser.parse). -/

/-- Elements of the tokens_without_braces working list: a constant is
replaced by its index into the precalculated list, and later by result
indices of resolved operations; variable and operator tokens keep the
identity tag of the original token occurrence, because the source
compares these wrapper objects with ==, which for them is object
identity. -/
inductive TWB where
  | num (n : ℤ)
  | var (id : ℕ) (name : String)
  | oper (id : ℕ) (op : Operator)

/-- Python == on tokens_without_braces entries: value equality for ints,
object identity for the wrapper objects (they define no custom
equality). -/
def pyEqTWB : TWB → TWB → Bool
  | .num n, .num m => n == m
  | .var i _, .var j _ => i == j
  | .oper i _, .oper j _ => i == j
  | _, _ => false

/-- The result of Parser.parse (class ParsedExpression): operations are
pairs of an operator and its stored argument tuple, and the precalculated
list seeds the value space. -/
structure ParsedExpression where
  operations : List (Operator × List TWB)
  precalculated : List Val

/-- State of the first pass of Parser.parse over the token list. -/
structure Ph1 where
  open_braces : ℤ
  close_braces : ℤ
  operators_data : List (ℤ × ℤ)
  precalculated : List Val
  twb : List TWB

/-- First pass of Parser.parse: brace counting with immediate failure on
an unmatched close brace, recording of operator occurrence data, constant
extraction into the precalculated list, and brace stripping. -/
def phase1Aux : List Token → ℕ → Ph1 → Except PyErr Ph1
  | [], _, st => .ok st
  | t :: rest, i, st =>
    match t with
    | .brace true => phase1Aux rest (i + 1) { st with open_braces := st.open_braces + 1 }
    | .brace false =>
      let st := { st with close_braces := st.close_braces + 1 }
      if st.open_braces - st.close_braces < 0 then .error .unmatchedCloseBrace
      else phase1Aux rest (i + 1) st
    | .oper op =>
      phase1Aux rest (i + 1)
        { st with
          operators_data := st.operators_data ++
            [(st.open_braces - st.close_braces, (i : ℤ) - (st.open_braces + st.close_braces))],
          twb := st.twb ++ [.oper i op] }
    | .var n => phase1Aux rest (i + 1) { st with twb := st.twb ++ [.var i n] }
    | .const v =>
      let pc := st.precalculated ++ [v]
      phase1Aux rest (i + 1)
        { st with precalculated := pc, twb := st.twb ++ [.num ((pc.length : ℤ) - 1)] }

/-- Plain (nonnegative) list read used by the sort key of Parser.parse;
the recorded positions always point at operator entries, so the default
of the other branches is never taken for states produced by the first
pass. -/
def lookupTWB (twb : List TWB) (pos : ℤ) : Option TWB :=
  if pos < 0 then none else twb.get? pos.toNat

/-- The priority read tokens_without_braces[pos].operator.priority used
in the sort key. -/
def priorityAt (twb : List TWB) (pos : ℤ) : WithTop ℕ :=
  match lookupTWB twb pos with
  | some (.oper _ op) => op.priority
  | _ => 0

/-- Boolean comparator modelling the Python sort of operators_data by the
key (depth, negated priority, negated position) with reverse=True: entry
a precedes entry b when a has greater depth, or equal depth and smaller
priority, or equal depth and priority and smaller position. -/
def sortKeyLe (twb : List TWB) (a b : ℤ × ℤ) : Bool :=
  if a.1 = b.1 then
    if priorityAt twb a.2 = priorityAt twb b.2 then a.2 ≤ b.2
    else priorityAt twb a.2 < priorityAt twb b.2
  else b.1 < a.1

def sortKeyRel (twb : List TWB) : (ℤ × ℤ) → (ℤ × ℤ) → Prop :=
  fun a b => sortKeyLe twb a b = true

instance (twb : List TWB) : DecidableRel (sortKeyRel twb) :=
  fun a b => instDecidableEqBool _ _

/-- Python sorted of operators_data with the descending key: sorted is a
stable sort, and insertion sort is a stable sort for the same comparator,
so the two agree (the recorded positions are in fact pairwise distinct,
making the sorted order unique anyway). -/
def sortedData (twb : List TWB) (odata : List (ℤ × ℤ)) : List (ℤ × ℤ) :=
  List.insertionSort (sortKeyRel twb) odata

/-- calculation_order: the sorted positions. -/
def calculationOrder (twb : List TWB) (odata : List (ℤ × ℤ)) : List ℤ :=
  (sortedData twb odata).map (fun d => d.2)

/-- Upward direction of the while loop of update_last_calc, structurally
recursive on a step counter: starting at index i, overwrite entries equal
(in the Python sense) to the remembered old value, moving right, stopping
at the first different entry or at the end of the list.  The counter is
an upper bound on the remaining iterations; the wrapper below passes one
more than the exact bound, so the zero case is never reached (lemma
updateLoopUpAux_irrel shows the result does not depend on the counter
once it exceeds the bound). -/
def updateLoopUpAux (old new : TWB) : ℕ → List TWB → ℤ → Except PyErr (List TWB)
  | 0, l, _ => .ok l
  | fuel + 1, l, i =>
    if i < (l.length : ℤ) then
      match pyGet l i with
      | .error e => .error e
      | .ok x =>
        if pyEqTWB x old then
          match pySet l i new with
          | .error e => .error e
          | .ok l2 => updateLoopUpAux old new fuel l2 (i + 1)
        else .ok l
    else .ok l

def updateLoopUp (old new : TWB) (l : List TWB) (i : ℤ) : Except PyErr (List TWB) :=
  updateLoopUpAux old new (((l.length : ℤ) - i).toNat + 1) l i

/-- Downward direction of the while loop of update_last_calc.  The index
check i < len never stops this direction; the loop ends at the first
different entry, or raises IndexError once the index wraps past the
front of the list (Python evaluates tokens[i] inside the loop
condition). -/
def updateLoopDownAux (old new : TWB) : ℕ → List TWB → ℤ → Except PyErr (List TWB)
  | 0, l, _ => .ok l
  | fuel + 1, l, i =>
    if i < (l.length : ℤ) then
      match pyGet l i with
      | .error e => .error e
      | .ok x =>
        if pyEqTWB x old then
          match pySet l i new with
          | .error e => .error e
          | .ok l2 => updateLoopDownAux old new fuel l2 (i - 1)
        else .ok l
    else .ok l

def updateLoopDown (old new : TWB) (l : List TWB) (i : ℤ) : Except PyErr (List TWB) :=
  updateLoopDownAux old new ((i + (l.length : ℤ) + 1).toNat + 1) l i

/-- update_last_calc: remember the entry one step to the given side of
the operator, then overwrite the contiguous run of entries equal to it in
that direction with the new calculation index. -/
def updateLastCalc (l : List TWB) (opIdx side calcIdx : ℤ) : Except PyErr (List TWB) :=
  match pyGet l (opIdx + side) with
  | .error e => .error e
  | .ok old =>
    if side = 1 then updateLoopUp old (.num calcIdx) l (opIdx + side)
    else updateLoopDown old (.num calcIdx) l (opIdx + side)

/-- The resolution loop of Parser.parse: process operator positions in
calculation order; k is the calculation index, P the length of the
precalculated list.  Reading a position whose entry is no longer an
operator token raises AttributeError (.operator on an int or a
VariableToken). -/
def phase3Aux (P : ℕ) (precalc : List Val) :
    List ℤ → ℕ → List TWB → List (Operator × List TWB) → Except PyErr ParsedExpression
  | [], _, _, ops => .ok ⟨ops, precalc⟩
  | opIdx :: rest, k, twb, ops =>
    match pyGet twb opIdx with
    | .error e => .error e
    | .ok (.num _) => .error .attributeError
    | .ok (.var _ _) => .error .attributeError
    | .ok (.oper _ op) =>
      match op.type with
      | .unary =>
        match pyGet twb (opIdx + 1) with
        | .error e => .error e
        | .ok a =>
          let ops := ops ++ [(op, [a])]
          match updateLastCalc twb opIdx 1 ((P : ℤ) + (k : ℤ)) with
          | .error e => .error e
          | .ok twb =>
            match pySet twb opIdx (.num ((P : ℤ) + (k : ℤ))) with
            | .error e => .error e
            | .ok twb => phase3Aux P precalc rest (k + 1) twb ops
      | .binary =>
        match pyGet twb (opIdx - 1) with
        | .error e => .error e
        | .ok a =>
          match pyGet twb (opIdx + 1) with
          | .error e => .error e
          | .ok b =>
            let ops := ops ++ [(op, [a, b])]
            match updateLastCalc twb opIdx 1 ((P : ℤ) + (k : ℤ)) with
            | .error e => .error e
            | .ok twb =>
              match updateLastCalc twb opIdx (-1) ((P : ℤ) + (k : ℤ)) with
              | .error e => .error e
              | .ok twb =>
                match pySet twb opIdx (.num ((P : ℤ) + (k : ℤ))) with
                | .error e => .error e
                | .ok twb => phase3Aux P precalc rest (k + 1) twb ops

/-- Parser.parse on an already produced token sequence: brace checking
pass, unclosed-brace check, sorting, resolution loop. -/
def parseTokens (tokens : List Token) : Except PyErr ParsedExpression :=
  match phase1Aux tokens 0 ⟨0, 0, [], [], []⟩ with
  | .error e => .error e
  | .ok st =>
    if st.open_braces - st.close_braces ≠ 0 then .error .unclosedOpenBrace
    else
      phase3Aux st.precalculated.length st.precalculated
        (calculationOrder st.twb st.operators_data) 0 st.twb []

/-- Parser.parse from source text: split, then resolve. -/
def Parser.parse (p : Parser) (s : String) : Except PyErr ParsedExpression :=
  match p.split s with
  | .error e => .error e
  | .ok tokens => parseTokens tokens

/-! The evaluator (ParsedExpression.__call__). -/

/-- Keyword arguments of an invocation. -/
abbrev Bindings := List (String × Val)

def lookupBind (b : Bindings) (n : String) : Option Val :=
  (b.find? (fun pr => pr.1 == n)).map (fun pr => pr.2)

/-- Resolution of one stored operand: an int indexes the value space, a
variable token is looked up among the keyword arguments (KeyError when
absent), and any other object has no name attribute. -/
def resolveOperand (st : List Val) (b : Bindings) : TWB → Except PyErr Val
  | .num i => pyGet st i
  | .var _ n =>
    match lookupBind b n with
    | some v => .ok v
    | none => .error (.keyError n)
  | .oper _ _ => .error .attributeError

/-- Left-to-right resolution of a stored argument tuple (the argument
generator is unpacked before the operator function is entered). -/
def resolveOperands (st : List Val) (b : Bindings) : List TWB → Except PyErr (List Val)
  | [] => .ok []
  | o :: rest =>
    match resolveOperand st b o with
    | .error e => .error e
    | .ok v =>
      match resolveOperands st b rest with
      | .error e => .error e
      | .ok vs => .ok (v :: vs)

/-- The evaluation loop over the operations, growing the value space. -/
def evalOps (b : Bindings) : List (Operator × List TWB) → List Val → Except PyErr (List Val)
  | [], st => .ok st
  | op :: rest, st =>
    match resolveOperands st b op.2 with
    | .error e => .error e
    | .ok vs =>
      match op.1.func vs with
      | .error e => .error e
      | .ok r => evalOps b rest (st ++ [r])

/-- ParsedExpression.__call__ as a pure function of the expression and
the keyword arguments: the value space starts as a fresh copy of the
precalculated list (deepcopy), and the result is its last element. -/
def callExpr (e : ParsedExpression) (b : Bindings) : Except PyErr Val :=
  match evalOps b e.operations e.precalculated with
  | .error er => .error er
  | .ok st => pyGet st (-1)

/-- ParsedExpression.__call__ with the method receiver threaded through
explicitly: the body reads self.precalculated and self.operations, writes
only the local value-space copy, and never rebinds a field of self, so
the receiver comes back as it went in. -/
def callMethod (e : ParsedExpression) (b : Bindings) :
    Except PyErr Val × ParsedExpression :=
  let calcStack := e.precalculated
  match evalOps b e.operations calcStack with
  | .error er => (.error er, e)
  | .ok st => (pyGet st (-1), e)

/-! The default operator and constant tables (class Defaults). -/

namespace Defaults

/-- Decimal digit class [0-9]. -/
def digit : RE := .cls (fun c => decide ('0' ≤ c) && decide (c ≤ '9'))

/-- Pattern body of the decimal integer constant. -/
def reDecimal : RE := RE.plus digit

/-- Pattern body of the binary integer constant. -/
def reBinary : RE :=
  .cat (RE.chr '0') (.cat (RE.chr 'b') (RE.plus (.cls (fun c => c == '0' || c == '1'))))

/-- Pattern body of the hexadecimal integer constant.  The character
class written 0-F in the source spans the ASCII range from the digit zero
to the letter F, which includes the punctuation between 9 and A and
excludes lowercase letters. -/
def reHex : RE :=
  .cat (RE.chr '0') (.cat (RE.chr 'x') (RE.plus (.cls (fun c => decide ('0' ≤ c) && decide (c ≤ 'F')))))

/-- Pattern body of the float constant. -/
def reFloat : RE :=
  .cat
    (.alt (.cat (.star digit) (.cat (RE.opt (RE.chr '.')) (RE.plus digit)))
      (.cat (RE.plus digit) (RE.chr '.')))
    (RE.opt (.cat (.alt (RE.chr 'e') (RE.chr 'E')) (RE.plus digit)))

/-- Pattern body of the boolean constant. -/
def reBool : RE :=
  .alt (RE.strL "True".data)
    (.alt (RE.strL "False".data) (.alt (RE.strL "true".data) (RE.strL "false".data)))

/-- Value of a decimal digit string, as the int builtin computes it on a
matched token. -/
def pyIntDec (s : List Char) : ℤ :=
  s.foldl (fun a c => a * 10 + ((c.toNat : ℤ) - 48)) 0

/-- Converter of the decimal constant kind. -/
def decConv (s : String) : Except PyErr Val := .ok (.int (pyIntDec s.data))

/-- Converter of the binary constant kind: int(s, 2) on a string of the
shape 0b followed by binary digits. -/
def binConv (s : String) : Except PyErr Val :=
  .ok (.int ((s.data.drop 2).foldl (fun a c => a * 2 + (if c == '1' then 1 else 0)) 0))

def hexDigitVal (c : Char) : Option ℕ :=
  if '0' ≤ c ∧ c ≤ '9' then some (c.toNat - 48)
  else if 'a' ≤ c ∧ c ≤ 'f' then some (c.toNat - 87)
  else if 'A' ≤ c ∧ c ≤ 'F' then some (c.toNat - 55)
  else none

/-- Converter of the hexadecimal constant kind: int(s, 16) accepts the 0x
lead and the genuine hex digits, and raises ValueError on the other
characters that the 0-F class of the pattern lets through. -/
def hexConv (s : String) : Except PyErr Val :=
  let ds := s.data.drop 2
  if ds.isEmpty then .error .valueError
  else
    match ds.foldl
        (fun a c =>
          match a, hexDigitVal c with
          | some n, some d => some (n * 16 + (d : ℤ))
          | _, _ => none)
        (some 0) with
    | some n => .ok (.int n)
    | none => .error .valueError

/-- Converter of the float constant kind, with the exact decimal value of
the literal (IEEE rounding is outside the model). -/
def floatConv (s : String) : Except PyErr Val :=
  let mant := s.data.takeWhile (fun c => !(c == 'e' || c == 'E'))
  let ex := (s.data.dropWhile (fun c => !(c == 'e' || c == 'E'))).drop 1
  let ip := mant.takeWhile (fun c => !(c == '.'))
  let fp := (mant.dropWhile (fun c => !(c == '.'))).drop 1
  .ok (.float (((pyIntDec ip : ℚ) + (pyIntDec fp : ℚ) / (10 : ℚ) ^ fp.length) *
    (10 : ℚ) ^ (pyIntDec ex).toNat))

/-- Converter of the boolean constant kind. -/
def boolConv (s : String) : Except PyErr Val :=
  .ok (.bool (s == "True" || s == "true"))

def integers_decimal : ConstantType := ⟨reDecimal, decConv⟩

def integers_binary : ConstantType := ⟨reBinary, binConv⟩

def integers_hex : ConstantType := ⟨reHex, hexConv⟩

def float_point : ConstantType := ⟨reFloat, floatConv⟩

def boolean : ConstantType := ⟨reBool, boolConv⟩

def pow : Operator :=
  ⟨"pow", .binary, binFn pyPow, ["^", "**"], (0 : ℕ)⟩

def div : Operator :=
  ⟨"div", .binary, binFn pyDiv, ["/"], (1 : ℕ)⟩

def mod : Operator :=
  ⟨"mod", .binary, binFn pyMod, ["%"], (1 : ℕ)⟩

def mul : Operator :=
  ⟨"mul", .binary, binFn pyMul, ["*"], (1 : ℕ)⟩

def plus : Operator :=
  ⟨"plus", .binary, binFn pyAdd, ["+"], (2 : ℕ)⟩

def minus : Operator :=
  ⟨"minus", .binary, binFn pySub, ["-"], (2 : ℕ)⟩

def eq : Operator :=
  ⟨"eq", .binary, binFn pyEqV, ["==", "⇔", "≡", "⟷"], (3 : ℕ)⟩

def not_eq : Operator :=
  ⟨"not_eq", .binary, binFn pyNeV, ["!=", "<>"], (3 : ℕ)⟩

def great_eq : Operator :=
  ⟨"great_eq", .binary, binFn pyGeV, [">="], (3 : ℕ)⟩

def great : Operator :=
  ⟨"great", .binary, binFn pyGtV, [">"], (3 : ℕ)⟩

def less_eq : Operator :=
  ⟨"less_eq", .binary, binFn pyLeV, ["<="], (3 : ℕ)⟩

def less : Operator :=
  ⟨"less", .binary, binFn pyLtV, ["<"], (3 : ℕ)⟩

def not_op : Operator :=
  ⟨"not", .unary, unaryFn (fun a => .ok (valNot a)), ["!", "~", "¬"], (4 : ℕ)⟩

def and_op : Operator :=
  ⟨"and", .binary, binFn (fun a b => .ok (valAnd a b)), ["&&", "⋀"], (5 : ℕ)⟩

def or_op : Operator :=
  ⟨"or", .binary, binFn (fun a b => .ok (valOr a b)), ["||", "⋁"], (6 : ℕ)⟩

def impl : Operator :=
  ⟨"impl", .binary, binFn (fun a b => .ok (valOr (valNot a) b)), ["->", "⇒", "→"], (7 : ℕ)⟩

/-- The default parser built at class-body time, with the operator list
and the constant kind list in source order. -/
def defaultParser : Parser :=
  ⟨[pow, div, mod, mul, plus, minus,
    eq, not_eq, great_eq, less_eq, great, less,
    not_op, and_op, or_op, impl],
   [integers_decimal, integers_binary, integers_hex, float_point, boolean]⟩

end Defaults

/-! Specification-side definitions used by the theorem statements. -/

/-- Number of open-brace tokens. -/
def openCount : List Token → ℤ
  | [] => 0
  | .brace true :: ts => openCount ts + 1
  | _ :: ts => openCount ts

/-- Number of close-brace tokens. -/
def closeCount : List Token → ℤ
  | [] => 0
  | .brace false :: ts => closeCount ts + 1
  | _ :: ts => closeCount ts

/-- Some prefix of the token sequence has more close braces than open
braces. -/
def braceViolation (ts : List Token) : Prop :=
  ∃ n, openCount (ts.take n) - closeCount (ts.take n) < 0

/-- The ParseError subclass of the embedded error type: exactly the two
brace errors raised by Parser.parse. -/
def isParseError (e : PyErr) : Prop :=
  e = .unmatchedCloseBrace ∨ e = .unclosedOpenBrace

/-- The values of the constant tokens of a token sequence, in order. -/
def constVals : List Token → List Val
  | [] => []
  | .const v :: ts => v :: constVals ts
  | _ :: ts => constVals ts

/-- A tokens_without_braces entry, if an int, is a valid nonnegative
index below the bound P. -/
def numBound (P : ℕ) (x : TWB) : Prop :=
  ∀ n, x = TWB.num n → 0 ≤ n ∧ n < (P : ℤ)

/-- Position pos of the working list holds an operator entry. -/
def operAt (twb : List TWB) (pos : ℤ) : Prop :=
  ∃ id op, lookupTWB twb pos = some (.oper id op)

/-- Strict version of the order in which the resolver processes operator
occurrences, as the code realises it: greater depth first; then smaller
priority number; then smaller (leftmost) position. -/
def strictBefore (twb : List TWB) (a b : ℤ × ℤ) : Prop :=
  b.1 < a.1 ∨
    (a.1 = b.1 ∧
      (priorityAt twb a.2 < priorityAt twb b.2 ∨
        (priorityAt twb a.2 = priorityAt twb b.2 ∧ a.2 < b.2)))

/-- Modelled from the spec: the order the specification claims, with the
rightmost position (greatest position) first among occurrences of equal
depth and equal priority. -/
def specClaimOrdered (twb : List TWB) (l : List (ℤ × ℤ)) : Prop :=
  List.Pairwise
    (fun a b =>
      b.1 < a.1 ∨
        (a.1 = b.1 ∧
          (priorityAt twb a.2 < priorityAt twb b.2 ∨
            (priorityAt twb a.2 = priorityAt twb b.2 ∧ b.2 < a.2))))
    l

/-- Parse and then invoke with the given keyword arguments. -/
def parseThenCall (p : Parser) (s : String) (b : Bindings) : Except PyErr Val :=
  match p.parse s with
  | .error e => .error e
  | .ok e => callExpr e b

/-- Parse and project the precalculated list. -/
def parsePrecalc (p : Parser) (s : String) : Except PyErr (List Val) :=
  match p.parse s with
  | .error e => .error e
  | .ok e => .ok e.precalculated

/-- Every int operand of the instruction at index j references an index
strictly below P + j, where P is the length of the precalculated list. -/
def opsBound (P : ℕ) (ops : List (Operator × List TWB)) : Prop :=
  ∀ j op, ops.get? j = some op → ∀ x ∈ op.2, numBound (P + j) x

instance (twb : List TWB) : IsTotal (ℤ × ℤ) (sortKeyRel twb) := by
  constructor
  intro a b
  simp only [sortKeyRel, sortKeyLe]
  by_cases h1 : a.1 = b.1
  · rw [if_pos h1, if_pos h1.symm]
    by_cases h2 : priorityAt twb a.2 = priorityAt twb b.2
    · rw [if_pos h2, if_pos h2.symm]
      rcases le_total a.2 b.2 with h | h
      · left
        simpa using h
      · right
        simpa using h
    · rw [if_neg h2, if_neg (fun hh => h2 hh.symm)]
      rcases lt_or_gt_of_ne h2 with h | h
      · left
        simpa using h
      · right
        simpa using h
  · rw [if_neg h1, if_neg (fun hh => h1 hh.symm)]
    rcases lt_or_gt_of_ne h1 with h | h
    · right
      simpa using h
    · left
      simpa using h

instance (twb : List TWB) : IsTrans (ℤ × ℤ) (sortKeyRel twb) := by
  constructor
  intro a b c hab hbc
  simp only [sortKeyRel, sortKeyLe] at *
  by_cases h1 : a.1 = b.1 <;> by_cases h2 : b.1 = c.1
  · rw [if_pos h1] at hab
    rw [if_pos h2] at hbc
    rw [if_pos (h1.trans h2)]
    by_cases p1 : priorityAt twb a.2 = priorityAt twb b.2 <;>
      by_cases p2 : priorityAt twb b.2 = priorityAt twb c.2
    · rw [if_pos p1] at hab
      rw [if_pos p2] at hbc
      rw [if_pos (p1.trans p2)]
      simp only [decide_eq_true_eq] at *
      omega
    · rw [if_pos p1] at hab
      rw [if_neg p2] at hbc
      rw [if_neg (fun hh => p2 (p1 ▸ hh))]
      rwa [p1]
    · rw [if_neg p1] at hab
      rw [if_pos p2] at hbc
      rw [if_neg (fun hh => p1 (p2 ▸ hh))]
      rwa [← p2]
    · rw [if_neg p1] at hab
      rw [if_neg p2] at hbc
      simp only [decide_eq_true_eq] at *
      by_cases p3 : priorityAt twb a.2 = priorityAt twb c.2
      · exact absurd (p3 ▸ lt_trans hab hbc) (lt_irrefl _)
      · rw [if_neg p3]
        simpa using lt_trans hab hbc
  · rw [if_pos h1] at hab
    rw [if_neg h2] at hbc
    rw [if_neg (h1 ▸ h2)]
    rwa [h1]
  · rw [if_neg h1] at hab
    rw [if_pos h2] at hbc
    rw [if_neg (h2 ▸ h1)]
    rwa [← h2]
  · rw [if_neg h1] at hab
    rw [if_neg h2] at hbc
    simp only [decide_eq_true_eq] at *
    by_cases h3 : a.1 = c.1
    · exact absurd (h3 ▸ lt_trans hbc hab) (lt_irrefl _)
    · rw [if_neg h3]
      simpa using lt_trans hbc hab

/-! Basic lemmas about the Python-semantics helpers. -/

theorem pyGet_err {α : Type} {l : List α} {i : ℤ} {e : PyErr}
    (h : pyGet l i = .error e) : e = .indexError := by
  unfold pyGet at h
  split at h
  · split at h
    · cases h
    · cases h
      rfl
  · cases h
    rfl

theorem pySet_err {α : Type} {l : List α} {i : ℤ} {a : α} {e : PyErr}
    (h : pySet l i a = .error e) : e = .indexError := by
  unfold pySet at h
  split at h
  · cases h
  · cases h
    rfl

theorem pyGet_ok_mem {α : Type} {l : List α} {i : ℤ} {a : α}
    (h : pyGet l i = .ok a) : a ∈ l := by
  unfold pyGet at h
  split at h
  · split at h
    · rename_i k hk x hx
      cases h
      exact List.get?_mem hx
    · cases h
  · cases h

theorem pyGet_nat {α : Type} {l : List α} {k : ℕ} (h : k < l.length) :
    pyGet l (k : ℤ) = .ok (l.get ⟨k, h⟩) := by
  unfold pyGet pyNorm
  rw [if_pos (by omega : (0 : ℤ) ≤ (k : ℤ))]
  rw [if_pos (by exact_mod_cast h)]
  simp [List.getElem?_eq_getElem h]

theorem pySet_ok_length {α : Type} {l l2 : List α} {i : ℤ} {a : α}
    (h : pySet l i a = .ok l2) : l2.length = l.length := by
  unfold pySet at h
  split at h
  · cases h
    exact List.length_set _ _ _
  · cases h

theorem pySet_ok_mem {α : Type} {l l2 : List α} {i : ℤ} {a : α}
    (h : pySet l i a = .ok l2) : ∀ x ∈ l2, x ∈ l ∨ x = a := by
  unfold pySet at h
  split at h
  · cases h
    intro x hx
    exact List.mem_or_eq_of_mem_set hx
  · cases h

theorem updateLoopUpAux_irrel (old new : TWB) :
    ∀ (f g : ℕ) (l : List TWB) (i : ℤ),
    ((l.length : ℤ) - i).toNat < f → ((l.length : ℤ) - i).toNat < g →
    updateLoopUpAux old new f l i = updateLoopUpAux old new g l i := by
  intro f
  induction f with
  | zero =>
    intro g l i hf hg
    omega
  | succ f ih =>
    intro g l i hf hg
    cases g with
    | zero => omega
    | succ g =>
      simp only [updateLoopUpAux]
      split
      · rename_i hcond
        cases hget : pyGet l i with
        | error e => simp only [hget]
        | ok x =>
          simp only [hget]
          split
          · cases hset : pySet l i new with
            | error e => simp only [hset]
            | ok l2 =>
              simp only [hset]
              have hlen := pySet_ok_length hset
              refine ih g l2 (i + 1) ?_ ?_ <;> rw [hlen] <;> omega
          · rfl
      · rfl

theorem updateLoopDownAux_irrel (old new : TWB) :
    ∀ (f g : ℕ) (l : List TWB) (i : ℤ),
    (i + (l.length : ℤ) + 1).toNat < f → (i + (l.length : ℤ) + 1).toNat < g →
    updateLoopDownAux old new f l i = updateLoopDownAux old new g l i := by
  intro f
  induction f with
  | zero =>
    intro g l i hf hg
    omega
  | succ f ih =>
    intro g l i hf hg
    cases g with
    | zero => omega
    | succ g =>
      simp only [updateLoopDownAux]
      split
      · rename_i hcond
        cases hget : pyGet l i with
        | error e => simp only [hget]
        | ok x =>
          have hge : -(l.length : ℤ) ≤ i := by
            by_contra hlt
            have : pyNorm l.length i = none := by
              unfold pyNorm
              rw [if_neg (by omega), if_neg (by omega)]
            unfold pyGet at hget
            rw [this] at hget
            cases hget
          simp only [hget]
          split
          · cases hset : pySet l i new with
            | error e => simp only [hset]
            | ok l2 =>
              simp only [hset]
              have hlen := pySet_ok_length hset
              refine ih g l2 (i - 1) ?_ ?_ <;> rw [hlen] <;> omega
          · rfl
      · rfl

theorem updateLoopUpAux_ok_mem (old new : TWB) :
    ∀ (fuel : ℕ) (l : List TWB) (i : ℤ) (l2 : List TWB),
    updateLoopUpAux old new fuel l i = .ok l2 → ∀ x ∈ l2, x ∈ l ∨ x = new := by
  intro fuel
  induction fuel with
  | zero =>
    intro l i l2 h x hx
    simp only [updateLoopUpAux] at h
    cases h
    exact Or.inl hx
  | succ f ih =>
    intro l i l2 h x hx
    simp only [updateLoopUpAux] at h
    split at h
    · cases hget : pyGet l i with
      | error e =>
        rw [hget] at h
        cases h
      | ok y =>
        simp only [hget] at h
        split at h
        · cases hset : pySet l i new with
          | error e =>
            rw [hset] at h
            cases h
          | ok l3 =>
            simp only [hset] at h
            rcases ih _ _ _ h x hx with h1 | h1
            · rcases pySet_ok_mem hset x h1 with h2 | h2
              · exact Or.inl h2
              · exact Or.inr h2
            · exact Or.inr h1
        · cases h
          exact Or.inl hx
    · cases h
      exact Or.inl hx

theorem updateLoopUp_ok_mem (old new : TWB) (l : List TWB) (i : ℤ) :
    ∀ l2, updateLoopUp old new l i = .ok l2 → ∀ x ∈ l2, x ∈ l ∨ x = new := by
  intro l2 h
  exact updateLoopUpAux_ok_mem old new _ l i l2 h

theorem updateLoopUpAux_err (old new : TWB) :
    ∀ (fuel : ℕ) (l : List TWB) (i : ℤ) (e : PyErr),
    updateLoopUpAux old new fuel l i = .error e → e = .indexError := by
  intro fuel
  induction fuel with
  | zero =>
    intro l i e h
    simp only [updateLoopUpAux] at h
    cases h
  | succ f ih =>
    intro l i e h
    simp only [updateLoopUpAux] at h
    split at h
    · cases hget : pyGet l i with
      | error e2 =>
        rw [hget] at h
        cases h
        exact pyGet_err hget
      | ok y =>
        simp only [hget] at h
        split at h
        · cases hset : pySet l i new with
          | error e2 =>
            rw [hset] at h
            cases h
            exact pySet_err hset
          | ok l3 =>
            simp only [hset] at h
            exact ih _ _ _ h
        · cases h
    · cases h

theorem updateLoopUp_err (old new : TWB) (l : List TWB) (i : ℤ) :
    ∀ e, updateLoopUp old new l i = .error e → e = .indexError := by
  intro e h
  exact updateLoopUpAux_err old new _ l i e h

theorem updateLoopDownAux_ok_mem (old new : TWB) :
    ∀ (fuel : ℕ) (l : List TWB) (i : ℤ) (l2 : List TWB),
    updateLoopDownAux old new fuel l i = .ok l2 → ∀ x ∈ l2, x ∈ l ∨ x = new := by
  intro fuel
  induction fuel with
  | zero =>
    intro l i l2 h x hx
    simp only [updateLoopDownAux] at h
    cases h
    exact Or.inl hx
  | succ f ih =>
    intro l i l2 h x hx
    simp only [updateLoopDownAux] at h
    split at h
    · cases hget : pyGet l i with
      | error e =>
        rw [hget] at h
        cases h
      | ok y =>
        simp only [hget] at h
        split at h
        · cases hset : pySet l i new with
          | error e =>
            rw [hset] at h
            cases h
          | ok l3 =>
            simp only [hset] at h
            rcases ih _ _ _ h x hx with h1 | h1
            · rcases pySet_ok_mem hset x h1 with h2 | h2
              · exact Or.inl h2
              · exact Or.inr h2
            · exact Or.inr h1
        · cases h
          exact Or.inl hx
    · cases h
      exact Or.inl hx

theorem updateLoopDown_ok_mem (old new : TWB) (l : List TWB) (i : ℤ) :
    ∀ l2, updateLoopDown old new l i = .ok l2 → ∀ x ∈ l2, x ∈ l ∨ x = new := by
  intro l2 h
  exact updateLoopDownAux_ok_mem old new _ l i l2 h

theorem updateLoopDownAux_err (old new : TWB) :
    ∀ (fuel : ℕ) (l : List TWB) (i : ℤ) (e : PyErr),
    updateLoopDownAux old new fuel l i = .error e → e = .indexError := by
  intro fuel
  induction fuel with
  | zero =>
    intro l i e h
    simp only [updateLoopDownAux] at h
    cases h
  | succ f ih =>
    intro l i e h
    simp only [updateLoopDownAux] at h
    split at h
    · cases hget : pyGet l i with
      | error e2 =>
        rw [hget] at h
        cases h
        exact pyGet_err hget
      | ok y =>
        simp only [hget] at h
        split at h
        · cases hset : pySet l i new with
          | error e2 =>
            rw [hset] at h
            cases h
            exact pySet_err hset
          | ok l3 =>
            simp only [hset] at h
            exact ih _ _ _ h
        · cases h
    · cases h

theorem updateLoopDown_err (old new : TWB) (l : List TWB) (i : ℤ) :
    ∀ e, updateLoopDown old new l i = .error e → e = .indexError := by
  intro e h
  exact updateLoopDownAux_err old new _ l i e h

theorem updateLastCalc_ok_mem {l l2 : List TWB} {opIdx side calcIdx : ℤ}
    (h : updateLastCalc l opIdx side calcIdx = .ok l2) :
    ∀ x ∈ l2, x ∈ l ∨ x = TWB.num calcIdx := by
  unfold updateLastCalc at h
  split at h
  · cases h
  · split at h
    · exact updateLoopUp_ok_mem _ _ _ _ l2 h
    · exact updateLoopDown_ok_mem _ _ _ _ l2 h

theorem updateLastCalc_err {l : List TWB} {opIdx side calcIdx : ℤ} {e : PyErr}
    (h : updateLastCalc l opIdx side calcIdx = .error e) : e = .indexError := by
  unfold updateLastCalc at h
  split at h
  · cases h
    rename_i hget
    exact pyGet_err hget
  · split at h
    · exact updateLoopUp_err _ _ _ _ e h
    · exact updateLoopDown_err _ _ _ _ e h

/-! Lemmas about the first pass of the resolver. -/

theorem ph1_err_kind : ∀ (ts : List Token) (i : ℕ) (st : Ph1) (e : PyErr),
    phase1Aux ts i st = .error e → e = .unmatchedCloseBrace := by
  intro ts
  induction ts with
  | nil =>
    intro i st e h
    simp only [phase1Aux] at h
    cases h
  | cons t rest ih =>
    intro i st e h
    cases t with
    | brace b =>
      cases b with
      | true =>
        simp only [phase1Aux] at h
        exact ih _ _ _ h
      | false =>
        simp only [phase1Aux] at h
        split at h
        · cases h
          rfl
        · exact ih _ _ _ h
    | oper op =>
      simp only [phase1Aux] at h
      exact ih _ _ _ h
    | var n =>
      simp only [phase1Aux] at h
      exact ih _ _ _ h
    | const v =>
      simp only [phase1Aux] at h
      exact ih _ _ _ h

theorem ph1_counts : ∀ (ts : List Token) (i : ℕ) (st st2 : Ph1),
    phase1Aux ts i st = .ok st2 →
    st2.open_braces = st.open_braces + openCount ts ∧
    st2.close_braces = st.close_braces + closeCount ts := by
  intro ts
  induction ts with
  | nil =>
    intro i st st2 h
    simp only [phase1Aux] at h
    cases h
    simp [openCount, closeCount]
  | cons t rest ih =>
    intro i st st2 h
    cases t with
    | brace b =>
      cases b with
      | true =>
        simp only [phase1Aux] at h
        have := ih _ _ _ h
        simp only [openCount, closeCount] at *
        omega
      | false =>
        simp only [phase1Aux] at h
        split at h
        · cases h
        · have := ih _ _ _ h
          simp only [openCount, closeCount] at *
          omega
    | oper op =>
      simp only [phase1Aux] at h
      have := ih _ _ _ h
      simp only [openCount, closeCount] at *
      omega
    | var n =>
      simp only [phase1Aux] at h
      have := ih _ _ _ h
      simp only [openCount, closeCount] at *
      omega
    | const v =>
      simp only [phase1Aux] at h
      have := ih _ _ _ h
      simp only [openCount, closeCount] at *
      omega

theorem ph1_error_violation : ∀ (ts : List Token) (i : ℕ) (st : Ph1) (e : PyErr),
    phase1Aux ts i st = .error e →
    ∃ n, st.open_braces - st.close_braces +
      (openCount (ts.take n) - closeCount (ts.take n)) < 0 := by
  intro ts
  induction ts with
  | nil =>
    intro i st e h
    simp only [phase1Aux] at h
    cases h
  | cons t rest ih =>
    intro i st e h
    cases t with
    | brace b =>
      cases b with
      | true =>
        simp only [phase1Aux] at h
        obtain ⟨n, hn⟩ := ih _ _ _ h
        refine ⟨n + 1, ?_⟩
        simp only [List.take_succ_cons, openCount, closeCount] at *
        omega
      | false =>
        simp only [phase1Aux] at h
        split at h
        · rename_i hneg
          refine ⟨1, ?_⟩
          simp only [List.take_succ_cons, List.take_zero, openCount, closeCount] at *
          omega
        · rename_i hneg
          obtain ⟨n, hn⟩ := ih _ _ _ h
          refine ⟨n + 1, ?_⟩
          simp only [List.take_succ_cons, openCount, closeCount] at *
          omega
    | oper op =>
      simp only [phase1Aux] at h
      obtain ⟨n, hn⟩ := ih _ _ _ h
      refine ⟨n + 1, ?_⟩
      simp only [List.take_succ_cons, openCount, closeCount] at *
      omega
    | var nm =>
      simp only [phase1Aux] at h
      obtain ⟨n, hn⟩ := ih _ _ _ h
      refine ⟨n + 1, ?_⟩
      simp only [List.take_succ_cons, openCount, closeCount] at *
      omega
    | const v =>
      simp only [phase1Aux] at h
      obtain ⟨n, hn⟩ := ih _ _ _ h
      refine ⟨n + 1, ?_⟩
      simp only [List.take_succ_cons, openCount, closeCount] at *
      omega

theorem ph1_violation_error : ∀ (ts : List Token) (i : ℕ) (st : Ph1),
    0 ≤ st.open_braces - st.close_braces →
    (∃ n, st.open_braces - st.close_braces +
      (openCount (ts.take n) - closeCount (ts.take n)) < 0) →
    phase1Aux ts i st = .error .unmatchedCloseBrace := by
  intro ts
  induction ts with
  | nil =>
    intro i st h0 ⟨n, hn⟩
    simp only [List.take_nil, openCount, closeCount] at hn
    omega
  | cons t rest ih =>
    intro i st h0 ⟨n, hn⟩
    cases t with
    | brace b =>
      cases b with
      | true =>
        simp only [phase1Aux]
        apply ih
        · simp only []
          omega
        · cases n with
          | zero =>
            simp only [List.take_zero, openCount, closeCount] at hn
            omega
          | succ m =>
            refine ⟨m, ?_⟩
            simp only [List.take_succ_cons, openCount, closeCount] at hn
            simp only []
            omega
      | false =>
        simp only [phase1Aux]
        split
        · rfl
        · rename_i hneg
          apply ih
          · simp only [] at hneg ⊢
            omega
          · cases n with
            | zero =>
              simp only [List.take_zero, openCount, closeCount] at hn
              omega
            | succ m =>
              refine ⟨m, ?_⟩
              simp only [List.take_succ_cons, openCount, closeCount] at hn
              simp only []
              omega
    | oper op =>
      simp only [phase1Aux]
      apply ih
      · simp only []
        omega
      · cases n with
        | zero =>
          simp only [List.take_zero, openCount, closeCount] at hn
          omega
        | succ m =>
          refine ⟨m, ?_⟩
          simp only [List.take_succ_cons, openCount, closeCount] at hn
          simp only []
          omega
    | var nm =>
      simp only [phase1Aux]
      apply ih
      · simp only []
        omega
      · cases n with
        | zero =>
          simp only [List.take_zero, openCount, closeCount] at hn
          omega
        | succ m =>
          refine ⟨m, ?_⟩
          simp only [List.take_succ_cons, openCount, closeCount] at hn
          simp only []
          omega
    | const v =>
      simp only [phase1Aux]
      apply ih
      · simp only []
        omega
      · cases n with
        | zero =>
          simp only [List.take_zero, openCount, closeCount] at hn
          omega
        | succ m =>
          refine ⟨m, ?_⟩
          simp only [List.take_succ_cons, openCount, closeCount] at hn
          simp only []
          omega

theorem ph1_precalc : ∀ (ts : List Token) (i : ℕ) (st st2 : Ph1),
    phase1Aux ts i st = .ok st2 →
    st2.precalculated = st.precalculated ++ constVals ts := by
  intro ts
  induction ts with
  | nil =>
    intro i st st2 h
    simp only [phase1Aux] at h
    cases h
    simp [constVals]
  | cons t rest ih =>
    intro i st st2 h
    cases t with
    | brace b =>
      cases b with
      | true =>
        simp only [phase1Aux] at h
        rw [ih _ _ _ h]
        simp [constVals]
      | false =>
        simp only [phase1Aux] at h
        split at h
        · cases h
        · rw [ih _ _ _ h]
          simp [constVals]
    | oper op =>
      simp only [phase1Aux] at h
      rw [ih _ _ _ h]
      simp [constVals]
    | var nm =>
      simp only [phase1Aux] at h
      rw [ih _ _ _ h]
      simp [constVals]
    | const v =>
      simp only [phase1Aux] at h
      rw [ih _ _ _ h]
      simp [constVals]

theorem numBound_mono {P Q : ℕ} (h : P ≤ Q) {x : TWB} : numBound P x → numBound Q x := by
  intro hb n hn
  refine ⟨(hb n hn).1, lt_of_lt_of_le (hb n hn).2 ?_⟩
  exact_mod_cast h

theorem ph1_nums : ∀ (ts : List Token) (i : ℕ) (st st2 : Ph1),
    phase1Aux ts i st = .ok st2 →
    (∀ x ∈ st.twb, numBound st.precalculated.length x) →
    ∀ x ∈ st2.twb, numBound st2.precalculated.length x := by
  intro ts
  induction ts with
  | nil =>
    intro i st st2 h hb
    simp only [phase1Aux] at h
    cases h
    exact hb
  | cons t rest ih =>
    intro i st st2 h hb
    cases t with
    | brace b =>
      cases b with
      | true =>
        simp only [phase1Aux] at h
        exact ih _ _ _ h hb
      | false =>
        simp only [phase1Aux] at h
        split at h
        · cases h
        · exact ih _ _ _ h hb
    | oper op =>
      simp only [phase1Aux] at h
      refine ih _ _ _ h ?_
      intro x hx
      rcases List.mem_append.mp hx with h1 | h1
      · exact hb x h1
      · simp only [List.mem_singleton] at h1
        subst h1
        intro n hn
        cases hn
    | var nm =>
      simp only [phase1Aux] at h
      refine ih _ _ _ h ?_
      intro x hx
      rcases List.mem_append.mp hx with h1 | h1
      · exact hb x h1
      · simp only [List.mem_singleton] at h1
        subst h1
        intro n hn
        cases hn
    | const v =>
      simp only [phase1Aux] at h
      refine ih _ _ _ h ?_
      intro x hx
      rcases List.mem_append.mp hx with h1 | h1
      · refine numBound_mono ?_ (hb x h1)
        simp
      · simp only [List.mem_singleton] at h1
        subst h1
        intro n hn
        injection hn with hn
        subst hn
        simp only [List.length_append, List.length_singleton]
        omega

theorem lookupTWB_append {twb l : List TWB} {pos : ℤ}
    (h0 : 0 ≤ pos) (h1 : pos < (twb.length : ℤ)) :
    lookupTWB (twb ++ l) pos = lookupTWB twb pos := by
  unfold lookupTWB
  rw [if_neg (not_lt.mpr h0), if_neg (not_lt.mpr h0)]
  exact List.get?_append (by omega)

theorem ph1_odata : ∀ (ts : List Token) (i : ℕ) (st st2 : Ph1),
    phase1Aux ts i st = .ok st2 →
    (i : ℤ) = st.open_braces + st.close_braces + st.twb.length →
    (∀ e ∈ st.operators_data,
      0 ≤ e.2 ∧ e.2 < (st.twb.length : ℤ) ∧ operAt st.twb e.2) →
    List.Pairwise (fun a b => a.2 < b.2) st.operators_data →
    (∀ e ∈ st2.operators_data,
      0 ≤ e.2 ∧ e.2 < (st2.twb.length : ℤ) ∧ operAt st2.twb e.2) ∧
    List.Pairwise (fun a b => a.2 < b.2) st2.operators_data := by
  intro ts
  induction ts with
  | nil =>
    intro i st st2 h hi hgood hpw
    simp only [phase1Aux] at h
    cases h
    exact ⟨hgood, hpw⟩
  | cons t rest ih =>
    intro i st st2 h hi hgood hpw
    cases t with
    | brace b =>
      cases b with
      | true =>
        simp only [phase1Aux] at h
        refine ih _ _ _ h ?_ hgood hpw
        show ((i + 1 : ℕ) : ℤ) = st.open_braces + 1 + st.close_braces + st.twb.length
        push_cast
        omega
      | false =>
        simp only [phase1Aux] at h
        split at h
        · cases h
        · refine ih _ _ _ h ?_ hgood hpw
          show ((i + 1 : ℕ) : ℤ) = st.open_braces + (st.close_braces + 1) + st.twb.length
          push_cast
          omega
    | oper op =>
      simp only [phase1Aux] at h
      refine ih _ _ _ h ?_ ?_ ?_
      · push_cast
        simp only [List.length_append, List.length_singleton]
        push_cast
        omega
      · intro e he
        simp only [] at he
        rcases List.mem_append.mp he with h1 | h1
        · obtain ⟨hb0, hb1, hb2⟩ := hgood e h1
          refine ⟨hb0, ?_, ?_⟩
          · simp only [List.length_append, List.length_singleton]
            push_cast
            omega
          · obtain ⟨id2, op2, hl⟩ := hb2
            exact ⟨id2, op2, (lookupTWB_append hb0 hb1).trans hl⟩
        · simp only [List.mem_singleton] at h1
          subst h1
          refine ⟨by omega, ?_, ?_⟩
          · simp only [List.length_append, List.length_singleton]
            push_cast
            omega
          · refine ⟨i, op, ?_⟩
            unfold lookupTWB
            rw [if_neg (by omega)]
            have hpos : ((i : ℤ) - (st.open_braces + st.close_braces)).toNat = st.twb.length := by
              omega
            rw [hpos]
            exact List.get?_concat_length _ _
      · refine List.pairwise_append.mpr ⟨hpw, List.pairwise_singleton _ _, ?_⟩
        intro a ha b hb
        simp only [List.mem_singleton] at hb
        subst hb
        have := (hgood a ha).2.1
        simp only []
        omega
    | var nm =>
      simp only [phase1Aux] at h
      refine ih _ _ _ h ?_ ?_ hpw
      · push_cast
        simp only [List.length_append, List.length_singleton]
        push_cast
        omega
      · intro e he
        obtain ⟨hb0, hb1, hb2⟩ := hgood e he
        refine ⟨hb0, ?_, ?_⟩
        · simp only [List.length_append, List.length_singleton]
          push_cast
          omega
        · obtain ⟨id2, op2, hl⟩ := hb2
          exact ⟨id2, op2, (lookupTWB_append hb0 hb1).trans hl⟩
    | const v =>
      simp only [phase1Aux] at h
      refine ih _ _ _ h ?_ ?_ hpw
      · push_cast
        simp only [List.length_append, List.length_singleton]
        push_cast
        omega
      · intro e he
        obtain ⟨hb0, hb1, hb2⟩ := hgood e he
        refine ⟨hb0, ?_, ?_⟩
        · simp only [List.length_append, List.length_singleton]
          push_cast
          omega
        · obtain ⟨id2, op2, hl⟩ := hb2
          exact ⟨id2, op2, (lookupTWB_append hb0 hb1).trans hl⟩

/-! Lemmas about the resolution loop. -/

theorem ph3_precalc (P : ℕ) (precalc : List Val) :
    ∀ (order : List ℤ) (k : ℕ) (twb : List TWB) (ops : List (Operator × List TWB))
      (e2 : ParsedExpression),
    phase3Aux P precalc order k twb ops = .ok e2 → e2.precalculated = precalc := by
  intro order
  induction order with
  | nil =>
    intro k twb ops e2 h
    simp only [phase3Aux] at h
    cases h
    rfl
  | cons opIdx rest ih =>
    intro k twb ops e2 h
    simp only [phase3Aux] at h
    split at h
    · cases h
    · cases h
    · cases h
    · split at h
      · split at h
        · cases h
        · split at h
          · cases h
          · split at h
            · cases h
            · exact ih _ _ _ _ h
      · split at h
        · cases h
        · split at h
          · cases h
          · split at h
            · cases h
            · split at h
              · cases h
              · split at h
                · cases h
                · exact ih _ _ _ _ h

theorem ph3_err (P : ℕ) (precalc : List Val) :
    ∀ (order : List ℤ) (k : ℕ) (twb : List TWB) (ops : List (Operator × List TWB)) (e : PyErr),
    phase3Aux P precalc order k twb ops = .error e →
    e = .indexError ∨ e = .attributeError := by
  intro order
  induction order with
  | nil =>
    intro k twb ops e h
    simp only [phase3Aux] at h
    cases h
  | cons opIdx rest ih =>
    intro k twb ops e h
    simp only [phase3Aux] at h
    split at h
    · rename_i e1 heq
      cases h
      exact Or.inl (pyGet_err heq)
    · cases h
      exact Or.inr rfl
    · cases h
      exact Or.inr rfl
    · split at h
      · split at h
        · rename_i e1 heq
          cases h
          exact Or.inl (pyGet_err heq)
        · split at h
          · rename_i e1 heq
            cases h
            exact Or.inl (updateLastCalc_err heq)
          · split at h
            · rename_i e1 heq
              cases h
              exact Or.inl (pySet_err heq)
            · exact ih _ _ _ _ h
      · split at h
        · rename_i e1 heq
          cases h
          exact Or.inl (pyGet_err heq)
        · split at h
          · rename_i e1 heq
            cases h
            exact Or.inl (pyGet_err heq)
          · split at h
            · rename_i e1 heq
              cases h
              exact Or.inl (updateLastCalc_err heq)
            · split at h
              · rename_i e1 heq
                cases h
                exact Or.inl (updateLastCalc_err heq)
              · split at h
                · rename_i e1 heq
                  cases h
                  exact Or.inl (pySet_err heq)
                · exact ih _ _ _ _ h

theorem opsBound_append {P : ℕ} {ops : List (Operator × List TWB)} {op : Operator × List TWB}
    (h : opsBound P ops) (hop : ∀ x ∈ op.2, numBound (P + ops.length) x) :
    opsBound P (ops ++ [op]) := by
  intro j o hj x hx
  rcases lt_or_ge j ops.length with hlt | hge
  · rw [List.get?_append hlt] at hj
    exact h j o hj x hx
  · have hlen : j < ops.length + 1 := by
      obtain ⟨hb, _⟩ := List.get?_eq_some.mp hj
      simpa using hb
    have hj2 : j = ops.length := by omega
    subst hj2
    rw [List.get?_concat_length] at hj
    cases hj
    exact hop x hx

theorem numBound_result {P k : ℕ} : numBound (P + (k + 1)) (TWB.num ((P : ℤ) + (k : ℤ))) := by
  intro n hn
  injection hn with hn
  subst hn
  constructor
  · omega
  · push_cast
    omega

theorem ph3_bound (P : ℕ) (precalc : List Val) :
    ∀ (order : List ℤ) (k : ℕ) (twb : List TWB) (ops : List (Operator × List TWB))
      (e2 : ParsedExpression),
    phase3Aux P precalc order k twb ops = .ok e2 →
    (∀ x ∈ twb, numBound (P + k) x) →
    ops.length = k →
    opsBound P ops →
    opsBound P e2.operations := by
  intro order
  induction order with
  | nil =>
    intro k twb ops e2 h htwb hlen hops
    simp only [phase3Aux] at h
    cases h
    exact hops
  | cons opIdx rest ih =>
    intro k twb ops e2 h htwb hlen hops
    simp only [phase3Aux] at h
    split at h
    · cases h
    · cases h
    · cases h
    · rename_i id op heq
      split at h
      · cases heqa : pyGet twb (opIdx + 1) with
        | error e1 =>
          simp only [heqa] at h
          cases h
        | ok a =>
          simp only [heqa] at h
          cases hequ : updateLastCalc twb opIdx 1 ((P : ℤ) + (k : ℤ)) with
          | error e1 =>
            simp only [hequ] at h
            cases h
          | ok twb1 =>
            simp only [hequ] at h
            cases heqs : pySet twb1 opIdx (TWB.num ((P : ℤ) + (k : ℤ))) with
            | error e1 =>
              simp only [heqs] at h
              cases h
            | ok twb2 =>
              simp only [heqs] at h
              refine ih _ _ _ _ h ?_ ?_ ?_
              · intro x hx
                rcases pySet_ok_mem heqs x hx with h1 | h1
                · rcases updateLastCalc_ok_mem hequ x h1 with h2 | h2
                  · exact numBound_mono (by omega) (htwb x h2)
                  · subst h2
                    exact numBound_result
                · subst h1
                  exact numBound_result
              · simp [hlen]
              · refine opsBound_append hops ?_
                intro x hx
                simp only [List.mem_singleton] at hx
                rw [hlen, hx]
                exact htwb a (pyGet_ok_mem heqa)
      · cases heqa : pyGet twb (opIdx - 1) with
        | error e1 =>
          simp only [heqa] at h
          cases h
        | ok a =>
          simp only [heqa] at h
          cases heqb : pyGet twb (opIdx + 1) with
          | error e1 =>
            simp only [heqb] at h
            cases h
          | ok b2 =>
            simp only [heqb] at h
            cases hequ : updateLastCalc twb opIdx 1 ((P : ℤ) + (k : ℤ)) with
            | error e1 =>
              simp only [hequ] at h
              cases h
            | ok twb1 =>
              simp only [hequ] at h
              cases hequ2 : updateLastCalc twb1 opIdx (-1) ((P : ℤ) + (k : ℤ)) with
              | error e1 =>
                simp only [hequ2] at h
                cases h
              | ok twb2 =>
                simp only [hequ2] at h
                cases heqs : pySet twb2 opIdx (TWB.num ((P : ℤ) + (k : ℤ))) with
                | error e1 =>
                  simp only [heqs] at h
                  cases h
                | ok twb3 =>
                  simp only [heqs] at h
                  refine ih _ _ _ _ h ?_ ?_ ?_
                  · intro x hx
                    rcases pySet_ok_mem heqs x hx with h1 | h1
                    · rcases updateLastCalc_ok_mem hequ2 x h1 with h2 | h2
                      · rcases updateLastCalc_ok_mem hequ x h2 with h3 | h3
                        · exact numBound_mono (by omega) (htwb x h3)
                        · subst h3
                          exact numBound_result
                      · subst h2
                        exact numBound_result
                    · subst h1
                      exact numBound_result
                  · simp [hlen]
                  · refine opsBound_append hops ?_
                    intro x hx
                    simp only [List.mem_cons, List.mem_singleton] at hx
                    rw [hlen]
                    rcases hx with h1 | h1
                    · rw [h1]
                      exact htwb a (pyGet_ok_mem heqa)
                    · simp only [List.not_mem_nil, or_false] at h1
                      rw [h1]
                      exact htwb b2 (pyGet_ok_mem heqb)

/-! Lemmas about the evaluator. -/

theorem pyGet_range {α : Type} {l : List α} {i : ℤ} (h0 : 0 ≤ i) (h1 : i < (l.length : ℤ)) :
    ∃ a, pyGet l i = .ok a := by
  unfold pyGet pyNorm
  rw [if_pos h0, if_pos h1]
  have hk : i.toNat < l.length := by omega
  exact ⟨l.get ⟨i.toNat, hk⟩, by simp [List.getElem?_eq_getElem hk]⟩

theorem resolveOperands_not_index {st : List Val} {b : Bindings} :
    ∀ l : List TWB, (∀ x ∈ l, numBound st.length x) →
    resolveOperands st b l ≠ .error .indexError := by
  intro l
  induction l with
  | nil =>
    intro hb h
    simp only [resolveOperands] at h
    cases h
  | cons o rest ih =>
    intro hb h
    simp only [resolveOperands] at h
    cases o with
    | num i =>
      obtain ⟨hi0, hi1⟩ := hb (.num i) (List.mem_cons_self _ _) i rfl
      obtain ⟨a, ha⟩ := pyGet_range hi0 hi1
      simp only [resolveOperand, ha] at h
      cases hr : resolveOperands st b rest with
      | error e =>
        rw [hr] at h
        injection h with h
        subst h
        exact ih (fun x hx => hb x (List.mem_cons_of_mem _ hx)) hr
      | ok vs =>
        rw [hr] at h
        cases h
    | var id n =>
      simp only [resolveOperand] at h
      cases hl : lookupBind b n with
      | some v =>
        rw [hl] at h
        cases hr : resolveOperands st b rest with
        | error e =>
          rw [hr] at h
          injection h with h
          subst h
          exact ih (fun x hx => hb x (List.mem_cons_of_mem _ hx)) hr
        | ok vs =>
          rw [hr] at h
          cases h
      | none =>
        rw [hl] at h
        injection h with h
        cases h
    | oper id op =>
      simp only [resolveOperand] at h
      injection h with h
      cases h

theorem resolveOperands_err_mid {st : List Val} {b : Bindings} {x : TWB} {l2 : List TWB}
    {er : PyErr} (hx : resolveOperand st b x = .error er) :
    ∀ (l1 : List TWB) (vs : List Val), resolveOperands st b l1 = .ok vs →
    resolveOperands st b (l1 ++ x :: l2) = .error er := by
  intro l1
  induction l1 with
  | nil =>
    intro vs h
    simp only [List.nil_append, resolveOperands, hx]
  | cons o l1 ih =>
    intro vs h
    simp only [resolveOperands] at h
    cases ho : resolveOperand st b o with
    | error e =>
      rw [ho] at h
      cases h
    | ok v =>
      rw [ho] at h
      cases hr : resolveOperands st b l1 with
      | error e =>
        rw [hr] at h
        cases h
      | ok vs1 =>
        rw [List.cons_append]
        simp only [resolveOperands, ho, ih vs1 hr]

theorem evalOps_append {b : Bindings} {l2 : List (Operator × List TWB)} :
    ∀ (l1 : List (Operator × List TWB)) (st st1 : List Val),
    evalOps b l1 st = .ok st1 → evalOps b (l1 ++ l2) st = evalOps b l2 st1 := by
  intro l1
  induction l1 with
  | nil =>
    intro st st1 h
    simp only [evalOps] at h
    cases h
    rfl
  | cons op l1 ih =>
    intro st st1 h
    simp only [evalOps] at h ⊢
    cases hr : resolveOperands st b op.2 with
    | error e =>
      simp only [hr] at h
      cases h
    | ok vs =>
      simp only [hr] at h ⊢
      cases hf : op.1.func vs with
      | error e =>
        simp only [hf] at h
        cases h
      | ok r =>
        simp only [hf] at h ⊢
        exact ih _ _ h

theorem evalOps_ok_length {b : Bindings} :
    ∀ (ops : List (Operator × List TWB)) (st st2 : List Val),
    evalOps b ops st = .ok st2 → st2.length = st.length + ops.length := by
  intro ops
  induction ops with
  | nil =>
    intro st st2 h
    simp only [evalOps] at h
    cases h
    simp
  | cons op rest ih =>
    intro st st2 h
    simp only [evalOps] at h
    cases hr : resolveOperands st b op.2 with
    | error e =>
      simp only [hr] at h
      cases h
    | ok vs =>
      simp only [hr] at h
      cases hf : op.1.func vs with
      | error e =>
        simp only [hf] at h
        cases h
      | ok r =>
        simp only [hf] at h
        have := ih _ _ h
        simp only [List.length_append, List.length_singleton, List.length_cons, List.length_nil] at *
        omega

/-! Claim theorems. -/

/-- C3: parse fails exactly on unbalanced braces: if at any point during
the left-to-right pass the running close-brace count exceeds the running
open-brace count, parse fails with the unmatched-close-brace ParseError;
if after the pass the totals differ, it fails with the unclosed-open-brace
ParseError; and on every balanced input parse raises no ParseError (any
remaining failure of malformed input is an IndexError or AttributeError,
not a ParseError). -/
theorem spec2_c3_brace_errors : ∀ ts : List Token,
    (braceViolation ts → parseTokens ts = .error .unmatchedCloseBrace) ∧
    (¬ braceViolation ts → openCount ts ≠ closeCount ts →
      parseTokens ts = .error .unclosedOpenBrace) ∧
    (¬ braceViolation ts → openCount ts = closeCount ts →
      ∀ e, parseTokens ts = .error e → ¬ isParseError e) := by
  intro ts
  refine ⟨?_, ?_, ?_⟩
  · intro hv
    obtain ⟨n, hn⟩ := hv
    unfold parseTokens
    rw [ph1_violation_error ts 0 ⟨0, 0, [], [], []⟩ (by decide)
      ⟨n, show (0 : ℤ) - 0 + (openCount (ts.take n) - closeCount (ts.take n)) < 0 by omega⟩]
  · intro hnv hne
    unfold parseTokens
    cases h1 : phase1Aux ts 0 ⟨0, 0, [], [], []⟩ with
    | error e2 =>
      exfalso
      apply hnv
      obtain ⟨n, hn⟩ := ph1_error_violation ts 0 _ e2 h1
      have hn2 : (0 : ℤ) - 0 + (openCount (ts.take n) - closeCount (ts.take n)) < 0 := hn
      exact ⟨n, by omega⟩
    | ok st =>
      obtain ⟨ho, hc⟩ := ph1_counts ts 0 _ st h1
      have ho2 : st.open_braces = 0 + openCount ts := ho
      have hc2 : st.close_braces = 0 + closeCount ts := hc
      simp only [h1]
      rw [if_pos (by omega)]
  · intro hnv heq e hE
    unfold parseTokens at hE
    cases h1 : phase1Aux ts 0 ⟨0, 0, [], [], []⟩ with
    | error e2 =>
      exfalso
      apply hnv
      obtain ⟨n, hn⟩ := ph1_error_violation ts 0 _ e2 h1
      have hn2 : (0 : ℤ) - 0 + (openCount (ts.take n) - closeCount (ts.take n)) < 0 := hn
      exact ⟨n, by omega⟩
    | ok st =>
      obtain ⟨ho, hc⟩ := ph1_counts ts 0 _ st h1
      have ho2 : st.open_braces = 0 + openCount ts := ho
      have hc2 : st.close_braces = 0 + closeCount ts := hc
      simp only [h1] at hE
      rw [if_neg (by omega)] at hE
      rcases ph3_err _ _ _ _ _ _ _ hE with h2 | h2 <;> subst h2 <;> simp [isParseError]

theorem spec2_c3_brace_errors_witness :
    parseTokens [Token.brace false] = .error .unmatchedCloseBrace ∧
    parseTokens [Token.brace true] = .error .unclosedOpenBrace := by
  constructor
  · exact (spec2_c3_brace_errors [Token.brace false]).1
      ⟨1, by simp [openCount, closeCount]⟩
  · refine (spec2_c3_brace_errors [Token.brace true]).2.1 ?_ (by decide)
    rintro ⟨n, hn⟩
    cases n with
    | zero => simp [openCount, closeCount] at hn
    | succ m => simp [openCount, closeCount, List.take_succ_cons, List.take_nil] at hn

/-- C4 (amended): every textual constant occurrence appends its own entry
to the precalculated list: the precalculated list of a parse result is
exactly the sequence of constant-token values in token order, so a
constant appearing twice is stored twice, not deduplicated. -/
theorem spec2_c4_per_occurrence : ∀ (ts : List Token) (e : ParsedExpression),
    parseTokens ts = .ok e → e.precalculated = constVals ts := by
  intro ts e h
  unfold parseTokens at h
  cases h1 : phase1Aux ts 0 ⟨0, 0, [], [], []⟩ with
  | error e2 =>
    rw [h1] at h
    cases h
  | ok st =>
    simp only [h1] at h
    split at h
    · cases h
    · have h2 := ph3_precalc _ _ _ _ _ _ _ h
      rw [h2]
      have h3 := ph1_precalc ts 0 _ st h1
      simpa using h3

theorem spec2_c4_per_occurrence_witness :
    parseTokens [Token.const (.int 8), Token.oper Defaults.plus, Token.const (.int 8)] =
      .ok ⟨[(Defaults.plus, [TWB.num 0, TWB.num 1])], [Val.int 8, Val.int 8]⟩ ∧
    ParsedExpression.precalculated
        ⟨[(Defaults.plus, [TWB.num 0, TWB.num 1])], [Val.int 8, Val.int 8]⟩ =
      constVals [Token.const (.int 8), Token.oper Defaults.plus, Token.const (.int 8)] :=
  ⟨rfl, spec2_c4_per_occurrence _ _ rfl⟩

/-- C4 (counterexample): parsing 8+8 with the default tables stores the
constant 8 twice in the precalculated list, refuting the claim that each
distinct constant is stored exactly once. -/
theorem spec2_c4_counterexample :
    parsePrecalc Defaults.defaultParser "8+8" = .ok [Val.int 8, Val.int 8] ∧
    ¬ ([Val.int 8, Val.int 8].count (Val.int 8) = 1) :=
  ⟨rfl, by decide⟩

/-- C7: if evaluation reaches a variable operand whose name is absent
from the bindings, invocation fails with a KeyError carrying that name
(the MissingVariable failure): reaching means the earlier instructions
evaluated successfully and the operands to the left of the variable in
the same instruction resolved successfully. -/
theorem spec2_c7_missing_variable :
    ∀ (e : ParsedExpression) (b : Bindings) (pre : List (Operator × List TWB))
      (op : Operator × List TWB) (post : List (Operator × List TWB)) (st1 : List Val)
      (opPre : List TWB) (id : ℕ) (n : String) (opRest : List TWB) (vs : List Val),
    e.operations = pre ++ op :: post →
    evalOps b pre e.precalculated = .ok st1 →
    op.2 = opPre ++ TWB.var id n :: opRest →
    resolveOperands st1 b opPre = .ok vs →
    lookupBind b n = none →
    callExpr e b = .error (.keyError n) := by
  intro e b pre op post st1 opPre id n opRest vs heq hev hop2 hvs hlook
  have hx : resolveOperand st1 b (TWB.var id n) = .error (.keyError n) := by
    simp [resolveOperand, hlook]
  have h1 : resolveOperands st1 b op.2 = .error (.keyError n) := by
    rw [hop2]
    exact resolveOperands_err_mid hx opPre vs hvs
  have h2 : evalOps b e.operations e.precalculated = .error (.keyError n) := by
    rw [heq, evalOps_append pre e.precalculated st1 hev]
    simp only [evalOps, h1]
  simp only [callExpr, h2]

theorem spec2_c7_missing_variable_witness :
    callExpr ⟨[(Defaults.plus, [TWB.num 0, TWB.var 2 "a"])], [Val.int 1]⟩ [] =
      .error (.keyError "a") :=
  spec2_c7_missing_variable ⟨[(Defaults.plus, [TWB.num 0, TWB.var 2 "a"])], [Val.int 1]⟩ []
    [] (Defaults.plus, [TWB.num 0, TWB.var 2 "a"]) [] [Val.int 1] [TWB.num 0] 2 "a" []
    [Val.int 1] rfl rfl rfl rfl rfl

/-- C8: invocation is deterministic and does not mutate the compiled
expression: the method returns its receiver unchanged (it only reads the
operations and precalculated fields and writes a local copy of the value
space), its result is the pure function of expression and bindings, and
re-invoking the returned expression with the same bindings gives the
identical result. -/
theorem spec2_c8_invocation_pure : ∀ (e : ParsedExpression) (b : Bindings),
    (callMethod e b).2 = e ∧ (callMethod e b).1 = callExpr e b ∧
    callMethod ((callMethod e b).2) b = callMethod e b := by
  intro e b
  unfold callMethod callExpr
  cases h : evalOps b e.operations e.precalculated <;> simp [h]

/-- C9: for every expression produced by the resolver, every int operand
of the k-th instruction is a valid nonnegative index strictly below
len(precalculated) + k, and consequently evaluation never fails an
operand lookup with IndexError: whenever evaluation reaches an
instruction, resolving its stored operands cannot raise IndexError. -/
theorem spec2_c9_operand_bounds : ∀ (ts : List Token) (e : ParsedExpression),
    parseTokens ts = .ok e →
    opsBound e.precalculated.length e.operations ∧
    (∀ (b : Bindings) (pre : List (Operator × List TWB)) (op : Operator × List TWB)
       (post : List (Operator × List TWB)) (st1 : List Val),
      e.operations = pre ++ op :: post →
      evalOps b pre e.precalculated = .ok st1 →
      resolveOperands st1 b op.2 ≠ .error .indexError) := by
  intro ts e h
  unfold parseTokens at h
  cases h1 : phase1Aux ts 0 ⟨0, 0, [], [], []⟩ with
  | error e2 =>
    rw [h1] at h
    cases h
  | ok st =>
    simp only [h1] at h
    split at h
    · cases h
    · have hpc : e.precalculated = st.precalculated := ph3_precalc _ _ _ _ _ _ _ h
      have htwb : ∀ x ∈ st.twb, numBound (st.precalculated.length + 0) x := by
        intro x hx
        have h3 := ph1_nums ts 0 _ st h1 (by intro x hx; cases hx) x hx
        simpa using h3
      have hops : opsBound st.precalculated.length e.operations :=
        ph3_bound _ _ _ _ _ _ _ h htwb rfl (by intro j op hj; simp at hj)
      rw [hpc]
      refine ⟨hops, ?_⟩
      intro b pre op post st1 heq hev
      have hlen : st1.length = st.precalculated.length + pre.length := by
        have h4 := evalOps_ok_length pre st.precalculated st1 hev
        omega
      have hget : e.operations.get? pre.length = some op := by
        rw [heq, List.get?_append_right (le_refl pre.length)]
        simp
      have hbound := hops pre.length op hget
      apply resolveOperands_not_index
      intro x hx
      rw [hlen]
      exact hbound x hx

theorem spec2_c9_operand_bounds_witness :
    opsBound 2 [(Defaults.plus, [TWB.num 0, TWB.num 1])] ∧
    resolveOperands [Val.int 1, Val.int 2] [] [TWB.num 0, TWB.num 1] ≠
      .error .indexError := by
  have h := spec2_c9_operand_bounds
    [Token.const (.int 1), Token.oper Defaults.plus, Token.const (.int 2)]
    ⟨[(Defaults.plus, [TWB.num 0, TWB.num 1])], [Val.int 1, Val.int 2]⟩ rfl
  exact ⟨h.1, h.2 [] [] (Defaults.plus, [TWB.num 0, TWB.num 1]) [] [Val.int 1, Val.int 2]
    rfl rfl⟩

theorem splitAux_spaces : ∀ (p : Parser) (cs : List Char) (ret : List Token),
    (∀ c ∈ cs, pyIsSpace c = true) → p.splitAux cs ret "" = .ok ret := by
  intro p cs
  induction cs with
  | nil =>
    intro ret h
    simp [Parser.splitAux]
  | cons c rest ih =>
    intro ret h
    have hc := h c (List.mem_cons_self _ _)
    simp only [Parser.splitAux]
    rw [if_pos (by simp [hc])]
    have h1 : p.appendTok ret "" = .ok ret := by
      simp [Parser.appendTok]
    have h2 : p.appendTok ret (String.singleton c) = .ok ret := by
      unfold Parser.appendTok
      rw [if_neg (by simp [String.singleton]), if_pos (by simp [String.singleton, hc])]
    simp only [h1, h2]
    exact ih ret (fun x hx => h x (List.mem_cons_of_mem _ hx))

/-- C10: parsing an empty or whitespace-only source succeeds with no
ParseError and yields an expression with no instructions and an empty
precalculated list, and invoking that expression fails for every bindings
mapping, because reading the final element of the empty value space
raises IndexError. -/
theorem spec2_c10_blank_input : ∀ s : String, (∀ c ∈ s.data, pyIsSpace c = true) →
    Defaults.defaultParser.parse s = .ok ⟨[], []⟩ ∧
    ∀ b : Bindings, callExpr ⟨[], []⟩ b = .error .indexError := by
  intro s h
  constructor
  · unfold Parser.parse Parser.split
    have hs : Defaults.defaultParser.splitAux (s.data ++ [' ']) [] "" = .ok [] := by
      refine splitAux_spaces _ _ _ ?_
      intro c hc
      rcases List.mem_append.mp hc with h1 | h1
      · exact h c h1
      · simp only [List.mem_singleton] at h1
        subst h1
        rfl
    rw [hs]
    rfl
  · intro b
    rfl

theorem spec2_c10_blank_input_witness :
    Defaults.defaultParser.parse " " = .ok ⟨[], []⟩ ∧
    callExpr ⟨[], []⟩ [] = .error .indexError := by
  have h := spec2_c10_blank_input " " (by decide)
  exact ⟨h.1, h.2 []⟩

/-- C1 (amended): the resolver processes operator occurrences in a total
deterministic order: the sorted occurrence list is a permutation of the
recorded occurrence data, pairwise strictly ordered by greater
brace-nesting depth first, then smaller priority number, then smaller
(that is, leftmost) original position; and every recorded occurrence
position indeed holds an operator entry, so the priorities read by the
sort key are the operator priorities.  The code breaks depth-and-priority
ties by taking the leftmost occurrence first, not the rightmost one
claimed by the specification. -/
theorem spec2_c1_resolution_order : ∀ (ts : List Token) (st : Ph1),
    phase1Aux ts 0 ⟨0, 0, [], [], []⟩ = .ok st →
    (sortedData st.twb st.operators_data).Perm st.operators_data ∧
    List.Pairwise (strictBefore st.twb) (sortedData st.twb st.operators_data) ∧
    (∀ e ∈ st.operators_data, operAt st.twb e.2) := by
  intro ts st h
  have hperm : (sortedData st.twb st.operators_data).Perm st.operators_data :=
    List.perm_insertionSort _ _
  obtain ⟨hgood, hpw⟩ := ph1_odata ts 0 _ st h (by decide)
    (fun e he => absurd he (List.not_mem_nil e)) List.Pairwise.nil
  have hsorted : List.Pairwise (sortKeyRel st.twb) (sortedData st.twb st.operators_data) :=
    List.sorted_insertionSort _ _
  have hne : List.Pairwise (fun a b : ℤ × ℤ => a.2 ≠ b.2)
      (sortedData st.twb st.operators_data) := by
    have h1 : List.Pairwise (fun a b : ℤ × ℤ => a.2 ≠ b.2) st.operators_data :=
      hpw.imp (fun hab => by omega)
    exact (hperm.pairwise_iff (fun hab => Ne.symm hab)).mpr h1
  refine ⟨hperm, ?_, fun e he => (hgood e he).2.2⟩
  refine List.Pairwise.imp ?_ (hsorted.and hne)
  intro a b hab
  obtain ⟨hk, hne2⟩ := hab
  have hk2 : sortKeyLe st.twb a b = true := hk
  simp only [sortKeyLe] at hk2
  unfold strictBefore
  by_cases h1 : a.1 = b.1
  · rw [if_pos h1] at hk2
    by_cases h2 : priorityAt st.twb a.2 = priorityAt st.twb b.2
    · rw [if_pos h2] at hk2
      simp only [decide_eq_true_eq] at hk2
      exact Or.inr ⟨h1, Or.inr ⟨h2, lt_of_le_of_ne hk2 hne2⟩⟩
    · rw [if_neg h2] at hk2
      simp only [decide_eq_true_eq] at hk2
      exact Or.inr ⟨h1, Or.inl hk2⟩
  · rw [if_neg h1] at hk2
    simp only [decide_eq_true_eq] at hk2
    exact Or.inl hk2

theorem spec2_c1_resolution_order_witness :
    (sortedData [TWB.num 0, TWB.oper 1 Defaults.minus, TWB.num 1, TWB.oper 3 Defaults.minus,
        TWB.num 2] [(0, 1), (0, 3)]).Perm [(0, 1), (0, 3)] ∧
    List.Pairwise
      (strictBefore [TWB.num 0, TWB.oper 1 Defaults.minus, TWB.num 1,
        TWB.oper 3 Defaults.minus, TWB.num 2])
      (sortedData [TWB.num 0, TWB.oper 1 Defaults.minus, TWB.num 1,
        TWB.oper 3 Defaults.minus, TWB.num 2] [(0, 1), (0, 3)]) ∧
    (∀ e ∈ [((0 : ℤ), (1 : ℤ)), ((0 : ℤ), (3 : ℤ))],
      operAt [TWB.num 0, TWB.oper 1 Defaults.minus, TWB.num 1, TWB.oper 3 Defaults.minus,
        TWB.num 2] e.2) :=
  spec2_c1_resolution_order
    [Token.const (.int 1), Token.oper Defaults.minus, Token.const (.int 2),
      Token.oper Defaults.minus, Token.const (.int 3)]
    ⟨0, 0, [(0, 1), (0, 3)], [Val.int 1, Val.int 2, Val.int 3],
      [TWB.num 0, TWB.oper 1 Defaults.minus, TWB.num 1, TWB.oper 3 Defaults.minus, TWB.num 2]⟩
    rfl

/-- C1 (counterexample): on the input 1-2-3 the two minus occurrences sit
at equal depth 0 and equal priority, at positions 1 and 3; the code
resolves position 1 (the leftmost) first, as the calculation order [1, 3]
shows, so the processed operator list is not ordered with the rightmost
occurrence first as the claim demands. -/
theorem spec2_c1_counterexample :
    Defaults.defaultParser.split "1-2-3" =
      .ok [Token.const (.int 1), Token.oper Defaults.minus, Token.const (.int 2),
        Token.oper Defaults.minus, Token.const (.int 3)] ∧
    phase1Aux [Token.const (.int 1), Token.oper Defaults.minus, Token.const (.int 2),
        Token.oper Defaults.minus, Token.const (.int 3)] 0 ⟨0, 0, [], [], []⟩ =
      .ok ⟨0, 0, [(0, 1), (0, 3)], [Val.int 1, Val.int 2, Val.int 3],
        [TWB.num 0, TWB.oper 1 Defaults.minus, TWB.num 1, TWB.oper 3 Defaults.minus,
          TWB.num 2]⟩ ∧
    calculationOrder [TWB.num 0, TWB.oper 1 Defaults.minus, TWB.num 1,
        TWB.oper 3 Defaults.minus, TWB.num 2] [(0, 1), (0, 3)] = [1, 3] ∧
    priorityAt [TWB.num 0, TWB.oper 1 Defaults.minus, TWB.num 1, TWB.oper 3 Defaults.minus,
        TWB.num 2] 1 =
      priorityAt [TWB.num 0, TWB.oper 1 Defaults.minus, TWB.num 1, TWB.oper 3 Defaults.minus,
        TWB.num 2] 3 ∧
    ¬ specClaimOrdered [TWB.num 0, TWB.oper 1 Defaults.minus, TWB.num 1,
        TWB.oper 3 Defaults.minus, TWB.num 2]
      (sortedData [TWB.num 0, TWB.oper 1 Defaults.minus, TWB.num 1,
        TWB.oper 3 Defaults.minus, TWB.num 2] [(0, 1), (0, 3)]) := by
  refine ⟨rfl, rfl, rfl, rfl, ?_⟩
  intro hp
  unfold specClaimOrdered at hp
  have hs : sortedData [TWB.num 0, TWB.oper 1 Defaults.minus, TWB.num 1,
      TWB.oper 3 Defaults.minus, TWB.num 2] [(0, 1), (0, 3)] = [(0, 1), (0, 3)] := rfl
  rw [hs] at hp
  have h2 := (List.pairwise_cons.mp hp).1 (0, 3) (by simp)
  rcases h2 with h3 | ⟨h3, h4 | ⟨h4, h5⟩⟩
  · exact absurd h3 (by decide)
  · exact absurd h4 (by decide)
  · exact absurd h5 (by decide)

/-- C2: parsing the scenario input with the default tables yields the
precalculated list [True, False, 8, 8, 8, 9], and invoking the compiled
expression with a bound to True or to False both yield True. -/
theorem spec2_c2_scenario :
    parsePrecalc Defaults.defaultParser "(True&&a->!False)||8>=8&&8<9" =
      .ok [Val.bool true, Val.bool false, Val.int 8, Val.int 8, Val.int 8, Val.int 9] ∧
    parseThenCall Defaults.defaultParser "(True&&a->!False)||8>=8&&8<9"
        [("a", Val.bool true)] = .ok (Val.bool true) ∧
    parseThenCall Defaults.defaultParser "(True&&a->!False)||8>=8&&8<9"
        [("a", Val.bool false)] = .ok (Val.bool true) :=
  ⟨rfl, rfl, rfl⟩

/-- C6: the tokenizer splits un-spaced input by recognising registered
signs inside runs of ordinary characters, and at a position where a
registered two-character sign occurs it is preferred over the shorter
registered sign there: a+b gives variable a, plus, variable b; a==b gives
eq (not two one-character tokens, as no one-character = sign exists and
the two-character sign is recognised); a**b gives pow rather than two mul
signs; a!=b gives not-eq rather than the not sign followed by garbage. -/
theorem spec2_c6_tokenizer_splits :
    Defaults.defaultParser.split "a+b" =
      .ok [Token.var "a", Token.oper Defaults.plus, Token.var "b"] ∧
    Defaults.defaultParser.split "a==b" =
      .ok [Token.var "a", Token.oper Defaults.eq, Token.var "b"] ∧
    Defaults.defaultParser.split "a**b" =
      .ok [Token.var "a", Token.oper Defaults.pow, Token.var "b"] ∧
    Defaults.defaultParser.split "a!=b" =
      .ok [Token.var "a", Token.oper Defaults.not_eq, Token.var "b"] :=
  ⟨rfl, rfl, rfl, rfl⟩

theorem pyDollarMatch_no_newline {body : RE} {s : List Char} (h : ∀ c ∈ s, c ≠ '\n') :
    pyDollarMatch body s = body.matchL s := by
  unfold pyDollarMatch
  cases hl : s.getLast? with
  | none => simp
  | some c =>
    have hc := h c (List.mem_of_mem_getLast? hl)
    simp [hc]

theorem matchConsts_eq_find : ∀ (cts : List ConstantType) (t : String),
    (∀ c ∈ t.data, c ≠ '\n') →
    matchConsts cts t =
      (match cts.find? (fun ct => ct.regexp.matchL t.data) with
       | some ct =>
         (match ct.to_value t with
          | .ok v => .ok (some (.const v))
          | .error e => .error e)
       | none => .ok (some (.var t))) := by
  intro cts t h
  induction cts with
  | nil => rfl
  | cons ct rest ih =>
    simp only [matchConsts]
    rw [pyDollarMatch_no_newline h]
    cases hm : ct.regexp.matchL t.data with
    | true =>
      rw [if_pos rfl]
      have hf : (ct :: rest).find? (fun ct => ct.regexp.matchL t.data) = some ct :=
        List.find?_cons_of_pos rest hm
      rw [hf]
    | false =>
      rw [if_neg (by simp)]
      have hf : (ct :: rest).find? (fun ct => ct.regexp.matchL t.data) =
          rest.find? (fun ct => ct.regexp.matchL t.data) :=
        List.find?_cons_of_neg rest (by simp [hm])
      rw [hf]
      exact ih

/-- C5: classification of a raw token text (one that is nonempty, not a
brace, not an operator name and not an operator sign, and contains no
newline, as every text the tokenizer emits does) tries the registered
constant kinds in registration order; a kind applies exactly when its
pattern matches the entire token text, because every registered pattern
asks for a match of its body extending to the end anchor; the first
matching kind wins and its converter produces the constant value; and if
no kind matches, the text becomes a variable token. -/
theorem spec2_c5_constant_classification :
    ∀ t : String, t ≠ "" → t ≠ "(" → t ≠ ")" →
    dictFind Defaults.defaultParser.operators_names t = none →
    dictFind Defaults.defaultParser.operators_signs t = none →
    (∀ c ∈ t.data, c ≠ '\n') →
    Defaults.defaultParser.to_token t =
      (match Defaults.defaultParser.constants.find?
          (fun ct => ct.regexp.matchL t.data) with
       | some ct =>
         (match ct.to_value t with
          | .ok v => .ok (some (.const v))
          | .error e => .error e)
       | none => .ok (some (.var t))) := by
  intro t h0 h1 h2 hn hs hnl
  unfold Parser.to_token
  rw [if_neg (by simp [h1]), if_neg (by simp [h2])]
  simp only [hn, hs]
  rw [if_neg (by simp [h0])]
  exact matchConsts_eq_find _ t hnl

theorem spec2_c5_constant_classification_witness :
    Defaults.defaultParser.to_token "12" = .ok (some (.const (.int 12))) := by
  rw [spec2_c5_constant_classification "12" (by decide) (by decide) (by decide) rfl rfl
    (by decide)]
  rfl
